import Mathlib

/-!
Verification of the beat-tracking core of the jsanov repository.

The development shallowly embeds the numeric core of the repository:
the offline dynamic-programming beat tracker (features.js, getBeats),
the spectrogram engine (features.js, getSpectrogram), the mel
filterbank builder (features.js, getMelFilterbank), the Superflux
novelty function (features.js, getSuperfluxNovfn) and the online
Bayesian beat tracker (onlinebeat.js, class OnlineBeat).

Modelling conventions:
* JavaScript floating-point numbers are modelled as real numbers;
  quantities that the code only ever uses in integer or rational
  positions (sample rates, hops, tempos, loop bounds) are modelled as
  rationals or integers so that side conditions stay decidable.
* The external FFT library (fft.js) is not part of the repository; it
  is abstracted as a parameter fft that maps a window of samples and a
  bin index to a complex value, exactly as realTransform is used.
* Mutable arrays become lists threaded through folds; out-of-range
  reads use getD with default 0, matching in-range behaviour of the
  source (the claims under verification only touch in-range indices).
* The unbounded backtrace while-loop is modelled with fuel equal to
  the novelty-function length, which suffices whenever the loop
  terminates (the backlink chain decreases strictly).
-/

namespace Jsanov

/-! ### Offline dynamic-programming beat tracker (features.js, getBeats) -/

/-- Source: let period = Math.floor((60*sr/hop)/tempo). -/
def beatPeriod (sr hop tempo : ℚ) : ℤ := ⌊(60 * sr / hop) / tempo⌋

/-- Source: let i1 = Math.floor(-2*period). -/
def beatI1 (sr hop tempo : ℚ) : ℤ := ⌊(-2 * (beatPeriod sr hop tempo : ℚ))⌋

/-- Source: let i2 = Math.floor(-period/2). -/
def beatI2 (sr hop tempo : ℚ) : ℤ := ⌊(-(beatPeriod sr hop tempo : ℚ)) / 2⌋

/-- Number of transition-cost candidates, the length i2-i1+1 of the
txcost array in the source. -/
def beatNcand (sr hop tempo : ℚ) : ℕ :=
  (beatI2 sr hop tempo - beatI1 sr hop tempo + 1).toNat

/-- First index updated by the DP loop, -i1+1 in the source. -/
def beatStart (sr hop tempo : ℚ) : ℕ := (1 - beatI1 sr hop tempo).toNat

/-- Source: txcost[i] = -alpha*Math.pow(Math.log(-(i1+i)/period), 2). -/
noncomputable def beatTxcost (sr hop tempo : ℚ) (alpha : ℝ) (k : ℕ) : ℝ :=
  -alpha * (Real.log (((-(beatI1 sr hop tempo + (k : ℤ))) : ℤ) /
      ((beatPeriod sr hop tempo : ℤ) : ℝ))) ^ 2

/-- Maximum of f over the indices 0, 1, ..., n. -/
noncomputable def listMax (f : ℕ → ℝ) : ℕ → ℝ
  | 0 => f 0
  | n + 1 => max (listMax f n) (f (n + 1))

/-- Source: the scan `idx = 0; for k: if (scorecands[k] > scorecands[idx]) idx = k`,
the first index attaining the maximum of f on 0, ..., n-1. -/
noncomputable def beatArgmax (f : ℕ → ℝ) (n : ℕ) : ℕ :=
  (List.range n).foldl (fun idx k => if f idx < f k then k else idx) 0

/-- DP state: (cscore, backlink, idxcscore). -/
abbrev BeatState : Type := List ℝ × List ℤ × ℕ

/-- Candidate score scorecands[k] = txcost[k] + cscore[i1+i+k] used by
the DP loop of getBeats at index i over the cscore array cs. -/
noncomputable def beatSc (cs : List ℝ) (i1 : ℤ) (txcost : ℕ → ℝ)
    (i k : ℕ) : ℝ :=
  txcost k + cs.getD ((i : ℤ) + i1 + (k : ℤ)).toNat 0

/-- One iteration of the DP loop body of getBeats at index i:
idx = first argmax of the scorecands scan;
cscore[i] = scorecands[idx] + novfn[i]; backlink[i] = i + i1 + idx;
if (cscore[i] > cscore[idxcscore]) idxcscore = i (the comparison reads
the already updated cscore array). -/
noncomputable def beatIter (novfn : List ℝ) (i1 : ℤ) (ncand : ℕ)
    (txcost : ℕ → ℝ) (st : BeatState) (i : ℕ) : BeatState :=
  let idx := beatArgmax (beatSc st.1 i1 txcost i) ncand
  let cs2 := st.1.set i (beatSc st.1 i1 txcost i idx + novfn.getD i 0)
  (cs2, st.2.1.set i ((i : ℤ) + i1 + (idx : ℤ)),
    if cs2.getD st.2.2 0 < cs2.getD i 0 then i else st.2.2)

/-- The forward pass of getBeats: cscore initialized to a copy of
novfn, backlink to zeros (Int32Array), idxcscore to 0, then the loop
for i from -i1+1 to novfn.length-1. -/
noncomputable def beatDP (novfn : List ℝ) (sr hop tempo : ℚ) (alpha : ℝ) :
    BeatState :=
  let N := novfn.length
  let i1 := beatI1 sr hop tempo
  let s := beatStart sr hop tempo
  (List.range' s (N - s)).foldl
    (beatIter novfn i1 (beatNcand sr hop tempo) (beatTxcost sr hop tempo alpha))
    (novfn, List.replicate N 0, 0)

/-- Source backtrace: beats = [idxcscore]; while backlink at the last
beat differs from it, push it.  Modelled with fuel; each recursive
step consumes one unit. -/
def backtrace (bl : List ℤ) : ℕ → ℤ → List ℤ
  | 0, j => [j]
  | fuel + 1, j =>
    let b := bl.getD j.toNat 0
    if b = j then [j] else j :: backtrace bl fuel b

/-- features.js getBeats: forward DP pass, then backtrace from the
best cumulative score and reverse. -/
noncomputable def getBeats (novfn : List ℝ) (sr hop tempo : ℚ) (alpha : ℝ) :
    List ℤ :=
  let st := beatDP novfn sr hop tempo alpha
  (backtrace st.2.1 novfn.length (st.2.2 : ℤ)).reverse

/-- Invariant of the DP loop of getBeats after processing the indices
s, s+1, ..., s+m-1 (s is the first processed index -i1+1, nc the
candidate count): lengths are preserved, cscore agrees with novfn and
backlink is still zero away from the processed range, every processed
index satisfies the cumulative-score recurrence and carries a
predecessor backlink realizing the maximum, and idxcscore is 0 or a
processed index. -/
def BeatInv (novfn : List ℝ) (i1 : ℤ) (txcost : ℕ → ℝ) (nc s m : ℕ)
    (st : BeatState) : Prop :=
  st.1.length = novfn.length ∧
  st.2.1.length = novfn.length ∧
  (∀ j : ℕ, (j < s ∨ s + m ≤ j) → st.1.getD j 0 = novfn.getD j 0) ∧
  (∀ j : ℕ, (j < s ∨ s + m ≤ j) → st.2.1.getD j 0 = 0) ∧
  (∀ i : ℕ, s ≤ i → i < s + m →
    st.1.getD i 0 = novfn.getD i 0 +
      listMax (beatSc st.1 i1 txcost i) (nc - 1)) ∧
  (∀ i : ℕ, s ≤ i → i < s + m → ∃ idx : ℕ, idx < nc ∧
    st.2.1.getD i 0 = (i : ℤ) + i1 + (idx : ℤ) ∧
    beatSc st.1 i1 txcost i idx = listMax (beatSc st.1 i1 txcost i) (nc - 1)) ∧
  (st.2.2 = 0 ∨ (s ≤ st.2.2 ∧ st.2.2 < s + m))

/-! ### Spectrogram engine (features.js, getSpectrogram) -/

/-- Source: let W = Math.floor(1+(samples.length-win)/hop), clamped to
a natural number of frames (the frame loop runs no iteration when the
value is not positive). -/
def specW (n win hop : ℕ) : ℕ :=
  (⌊(1 : ℚ) + ((n : ℚ) - (win : ℚ)) / (hop : ℚ)⌋).toNat

/-- Spectral power at frame i, bin k: the squared magnitude
s[k*2]*s[k*2] + s[k*2+1]*s[k*2+1] of the FFT of the window slice
samples.slice(i*hop, i*hop+win).  The FFT itself (library fft.js) is
abstracted as the parameter fft, returning the (real, imaginary) pair
for a window and a bin index. -/
noncomputable def specPower (fft : List ℝ → ℕ → ℝ × ℝ) (samples : List ℝ)
    (win hop i k : ℕ) : ℝ :=
  let x := (samples.drop (i * hop)).take win
  let c := fft x k
  c.1 * c.1 + c.2 * c.2

/-- features.js getSpectrogram: W frames of win/2+1 bins; in dB mode
the entry is 10*log10(power), otherwise sqrt(power). -/
noncomputable def getSpectrogram (fft : List ℝ → ℕ → ℝ × ℝ)
    (samples : List ℝ) (win hop : ℕ) (useDb : Bool) : List (List ℝ) :=
  (List.range (specW samples.length win hop)).map fun i =>
    (List.range (win / 2 + 1)).map fun k =>
      let p := specPower fft samples win hop i k
      if useDb then 10 * Real.logb 10 p else Real.sqrt p

/-! ### Mel filterbank builder (features.js, getMelFilterbank) -/

/-- Source: bins[0] = minFreq*win/sr before rounding. -/
def melBin0 (win : ℕ) (sr minFreq : ℚ) : ℚ := minFreq * (win : ℚ) / sr

/-- Source: let a = Math.exp(Math.log(maxFreq/minFreq)/(nBins+1)). -/
noncomputable def melA (minFreq maxFreq : ℚ) (nBins : ℕ) : ℝ :=
  Real.exp (Real.log ((maxFreq : ℝ) / (minFreq : ℝ)) / ((nBins : ℝ) + 1))

/-- The rounded mel bin locations: bins[i] = round(bins[0] * a^i)
(the source first fills the geometric sequence, then rounds every
entry with Math.round). -/
noncomputable def melBins (win : ℕ) (sr minFreq maxFreq : ℚ) (nBins : ℕ)
    (i : ℕ) : ℤ :=
  round (((melBin0 win sr minFreq : ℚ) : ℝ) * melA minFreq maxFreq nBins ^ i)

/-- The guarded triangle edges of filter i: i1 = bins[i],
i2 = bins[i+1] bumped by one when it equals i1, i3 = bins[i+2] bumped
to i2+1 when it is at most i2. -/
def melEdges (bins : ℕ → ℤ) (i : ℕ) : ℤ × ℤ × ℤ :=
  let i1 := bins i
  let i2 := if bins (i + 1) = i1 then bins (i + 1) + 1 else bins (i + 1)
  let i3 := if bins (i + 2) ≤ i2 then i2 + 1 else bins (i + 2)
  (i1, i2, i3)

/-- Value written by the two fill loops of getMelFilterbank into row k
of column i, for given rounded bin locations: m*(k-i1) on [i1, i2)
with m = 1/(i2-i1), and 1 + m*(k-i2) on [i2, i3) with m = -1/(i3-i2),
zero elsewhere (rows are allocated as zero Float32Arrays). -/
noncomputable def melValue (bins : ℕ → ℤ) (i : ℕ) (k : ℤ) : ℝ :=
  let e := melEdges bins i
  if e.1 ≤ k ∧ k < e.2.1 then
    (1 / ((e.2.1 : ℝ) - (e.1 : ℝ))) * ((k : ℝ) - (e.1 : ℝ))
  else if e.2.1 ≤ k ∧ k < e.2.2 then
    1 + (-1 / ((e.2.2 : ℝ) - (e.2.1 : ℝ))) * ((k : ℝ) - (e.2.1 : ℝ))
  else 0

/-- features.js getMelFilterbank, as the function sending row k and
column i to Mel[k][i]. -/
noncomputable def getMelFilterbank (win : ℕ) (sr minFreq maxFreq : ℚ)
    (nBins : ℕ) (k : ℤ) (i : ℕ) : ℝ :=
  melValue (melBins win sr minFreq maxFreq nBins) i k

/-! ### Superflux novelty (features.js, getSuperfluxNovfn) -/

/-- numeric.dot for a W x K spectrogram against the K x nB mel matrix:
entry (i, j) is the sum over k < K of S[i][k]*M[k][j]. -/
noncomputable def melDot (S : List (List ℝ)) (M : ℕ → ℕ → ℝ) (K nB : ℕ) :
    List (List ℝ) :=
  S.map fun row =>
    (List.range nB).map fun j =>
      ((List.range K).map fun k => row.getD k 0 * M k j).sum

/-- The log mel spectrogram computed inside getSuperfluxNovfn: linear
magnitude spectrogram, projected through the 138-bin mel filterbank
from 27.5 Hz to min(16000, sr/2) Hz, then log10(entry + Gamma). -/
noncomputable def superfluxLogMel (fft : List ℝ → ℕ → ℝ × ℝ)
    (samples : List ℝ) (sr : ℚ) (win hop : ℕ) (Gamma : ℝ) :
    List (List ℝ) :=
  let S := getSpectrogram fft samples win hop false
  let M := fun (k j : ℕ) =>
    getMelFilterbank win sr (55 / 2) (min 16000 (sr / 2)) 138 (k : ℤ) j
  (melDot S M (win / 2 + 1) 138).map fun row =>
    row.map fun x => Real.logb 10 (x + Gamma)

/-- features.js getSuperfluxNovfn with explicit mu and Gamma: the
novelty value at i sums the positive part of S[i+mu][k] - S[i][k]
over the 138 mel bins of the log mel spectrogram. -/
noncomputable def getSuperfluxNovfn (fft : List ℝ → ℕ → ℝ × ℝ)
    (samples : List ℝ) (sr : ℚ) (win hop mu : ℕ) (Gamma : ℝ) : List ℝ :=
  let S := superfluxLogMel fft samples sr win hop Gamma
  (List.range (S.length - mu)).map fun i =>
    ((List.range 138).map fun k =>
      let diff := (S.getD (i + mu) []).getD k 0 - (S.getD i []).getD k 0
      if 0 < diff then diff else 0).sum

/-- getSuperfluxNovfn invoked with its defaulted parameters: the
source substitutes mu = 3 and Gamma = 1 when they are undefined. -/
noncomputable def getSuperfluxNovfnDefaults (fft : List ℝ → ℕ → ℝ × ℝ)
    (samples : List ℝ) (sr : ℚ) (win hop : ℕ) : List ℝ :=
  getSuperfluxNovfn fft samples sr win hop 3 1

/-! ### Online Bayesian beat tracker (onlinebeat.js, class OnlineBeat) -/

/-- State of the online tracker: probability rows f (one row per
tempo level, row i has Ms[i] phase slots), the tempo levels Ms, the
tempo transition table btrans, the running novelty normalizer max,
the phase output, and the off-beat attenuation gamma. -/
structure OnlineBeat where
  f : List (List ℝ)
  Ms : List ℤ
  btrans : List (List ℝ)
  max : ℝ
  phase : ℝ
  gamma : ℝ

/-- OnlineBeat constructor: delta = hop*fac/sr, tempo levels from
M2 = floor(60/(delta*maxBPM)) to M1 = floor(60/(delta*minBPM)),
uniform mass 1/N over the N = sum of levels states,
btrans[i][j] = exp(-lam*|Ms[i]/Ms[j] - 1|) filled symmetrically (the
source writes the (i, j) value with i <= j into both (i, j) and
(j, i), so entry (a, b) holds the formula at (min a b, max a b)),
max = 150, phase = 0. -/
noncomputable def OnlineBeat.init (sr hop fac : ℚ) (lam : ℝ)
    (minBPM maxBPM : ℚ) (gamma : ℝ) : OnlineBeat :=
  let delta := hop * fac / sr
  let M1 := ⌊(60 : ℚ) / (delta * minBPM)⌋
  let M2 := ⌊(60 : ℚ) / (delta * maxBPM)⌋
  let cnt := (M1 - M2 + 1).toNat
  let Ms : List ℤ := (List.range cnt).map fun t => M2 + (t : ℤ)
  let Ntot : ℤ := Ms.sum
  { f := Ms.map fun M => List.replicate M.toNat ((1 : ℝ) / ((Ntot : ℤ) : ℝ))
    Ms := Ms
    btrans := (List.range cnt).map fun i =>
      (List.range cnt).map fun j =>
        Real.exp (-lam * |((Ms.getD (Nat.min i j) 0 : ℤ) : ℝ) /
          ((Ms.getD (Nat.max i j) 0 : ℤ) : ℝ) - 1|)
    max := 150
    phase := 0
    gamma := gamma }

/-- Running max update at the head of filter:
if (nov > this.max) this.max = nov. -/
noncomputable def filterMax (st : OnlineBeat) (nov : ℝ) : ℝ :=
  if st.max < nov then nov else st.max

/-- Measurement pseudo-probability pBeat = nov/this.max, taken after
the running max update. -/
noncomputable def filterPBeat (st : OnlineBeat) (nov : ℝ) : ℝ :=
  nov / filterMax st nov

/-- Step 1 of filter (time advance): row i becomes bProb consed onto
f[i] without its last entry, where bProb sums btrans[i][j] times the
last entry of f[j] over all levels j. -/
noncomputable def filterG (st : OnlineBeat) : List (List ℝ) :=
  let N := st.Ms.length
  (List.range N).map fun i =>
    (((List.range N).map fun j =>
        (st.btrans.getD i []).getD j 0 * (st.f.getD j []).getLastD 0).sum)
      :: (st.f.getD i []).dropLast

/-- Step 2 of filter (measurement): the beat slot is scaled by pBeat,
every other slot by gamma. -/
noncomputable def filterG2 (st : OnlineBeat) (nov : ℝ) : List (List ℝ) :=
  (filterG st).map fun r =>
    match r with
    | [] => []
    | b :: rest => (b * filterPBeat st nov) :: rest.map fun x => x * st.gamma

/-- Total probability mass of a grid, the sum of all entries. -/
def pmfSum (f : List (List ℝ)) : ℝ := (f.map List.sum).sum

/-- The normalization constant norm accumulated during filter: the sum
of all entries of the measured grid. -/
noncomputable def filterNorm (st : OnlineBeat) (nov : ℝ) : ℝ :=
  pmfSum (filterG2 st nov)

/-- Phase contribution of one measured row of length L: the beat slot
enters with weight 1, the slot at position k with weight
2*|0.5 - k/L|. -/
noncomputable def phaseWeightRow (r : List ℝ) : ℝ :=
  match r with
  | [] => 0
  | b :: rest =>
    b + ((rest.enumFrom 1).map fun q =>
      q.2 * (2 * |1 / 2 - ((q.1 : ℝ) / (((rest.length + 1 : ℕ) : ℝ)))|)).sum

/-- The weighted phase sum meanPhase accumulated during filter. -/
noncomputable def filterMeanPhase (st : OnlineBeat) (nov : ℝ) : ℝ :=
  ((filterG2 st nov).map phaseWeightRow).sum

/-- onlinebeat.js OnlineBeat.filter: running max update, time advance,
measurement, then unconditional normalization by norm; phase becomes
meanPhase/norm and f becomes the normalized measured grid. -/
noncomputable def OnlineBeat.filter (st : OnlineBeat) (nov : ℝ) :
    OnlineBeat :=
  let norm := filterNorm st nov
  { st with
    f := (filterG2 st nov).map fun r => r.map fun x => x / norm
    max := filterMax st nov
    phase := filterMeanPhase st nov / norm }

/-- Repeated filtering over a stream of novelty samples. -/
noncomputable def filterRun (st : OnlineBeat) (l : List ℝ) : OnlineBeat :=
  l.foldl OnlineBeat.filter st

/-! ### General helper lemmas -/

theorem getD_set_self {α : Type} (l : List α) (i : ℕ) (v d : α)
    (h : i < l.length) : (l.set i v).getD i d = v := by
  simp [List.getD_eq_getElem?_getD, List.getElem?_set_self h]

theorem getD_set_ne {α : Type} (l : List α) (i j : ℕ) (v d : α)
    (h : i ≠ j) : (l.set i v).getD j d = l.getD j d := by
  simp [List.getD_eq_getElem?_getD, List.getElem?_set_ne h]

theorem getD_replicate {α : Type} (n j : ℕ) (a : α) :
    (List.replicate n a).getD j a = a := by
  simp only [List.getD_eq_getElem?_getD, List.getElem?_replicate]
  split <;> simp

theorem getD_range_map {α : Type} (f : ℕ → α) (n i : ℕ) (d : α)
    (h : i < n) : ((List.range n).map f).getD i d = f i := by
  simp [List.getD_eq_getElem?_getD, List.getElem?_map, List.getElem?_range h]

theorem getD_map_of_default {α β : Type} (h : α → β) (d : α) (e : β)
    (hd : h d = e) (l : List α) (i : ℕ) :
    (l.map h).getD i e = h (l.getD i d) := by
  simp only [List.getD_eq_getElem?_getD, List.getElem?_map]
  cases l[i]? <;> simp [hd]

theorem sum_map_div (l : List ℝ) (c : ℝ) :
    (l.map fun x => x / c).sum = l.sum / c := by
  induction l with
  | nil => simp
  | cons a t ih => simp [add_div, ih]

theorem round_mono_le {x y : ℝ} (h : x ≤ y) : round x ≤ round y := by
  rw [round_eq, round_eq]
  exact Int.floor_mono (by linarith)

theorem le_listMax (f : ℕ → ℝ) : ∀ n k, k ≤ n → f k ≤ listMax f n := by
  intro n
  induction n with
  | zero => intro k hk; interval_cases k; exact le_of_eq rfl
  | succ n ih =>
    intro k hk
    rcases Nat.lt_or_ge k (n + 1) with h | h
    · exact le_trans (ih k (Nat.lt_succ_iff.mp h)) (le_max_left _ _)
    · have : k = n + 1 := le_antisymm hk h
      subst this
      exact le_max_right _ _

theorem listMax_congr (f g : ℕ → ℝ) :
    ∀ n, (∀ k, k ≤ n → f k = g k) → listMax f n = listMax g n := by
  intro n
  induction n with
  | zero => intro h; simpa [listMax] using h 0 le_rfl
  | succ n ih =>
    intro h
    simp only [listMax]
    rw [ih fun k hk => h k (le_trans hk (Nat.le_succ n)), h (n + 1) le_rfl]

theorem beatArgmax_succ (f : ℕ → ℝ) (n : ℕ) :
    beatArgmax f (n + 1) =
      if f (beatArgmax f n) < f n then n else beatArgmax f n := by
  simp [beatArgmax, List.range_succ]

theorem beatArgmax_le (f : ℕ → ℝ) : ∀ n, beatArgmax f (n + 1) ≤ n := by
  intro n
  induction n with
  | zero => simp [beatArgmax, List.range_succ, beatArgmax]
  | succ n ih =>
    rw [beatArgmax_succ]
    split
    · exact le_rfl
    · exact le_trans ih (Nat.le_succ n)

theorem beatArgmax_eq_listMax (f : ℕ → ℝ) :
    ∀ n, f (beatArgmax f (n + 1)) = listMax f n := by
  intro n
  induction n with
  | zero =>
    simp [beatArgmax, List.range_succ, listMax]
  | succ n ih =>
    rw [beatArgmax_succ]
    simp only [listMax]
    split
    · next hlt =>
      rw [ih] at hlt
      exact (max_eq_right (le_of_lt hlt)).symm
    · next hge =>
      rw [ih] at hge
      rw [ih]
      exact (max_eq_left (not_lt.mp hge)).symm

/-! ### The DP loop invariant of getBeats -/



theorem beatLoop_inv (novfn : List ℝ) (i1 i2 : ℤ) (txcost : ℕ → ℝ)
    (s nc : ℕ) (hs : (s : ℤ) = 1 - i1) (hnc : (nc : ℤ) = i2 - i1 + 1)
    (h12 : i1 ≤ i2) (h2 : i2 ≤ -1) :
    ∀ m : ℕ, m ≤ novfn.length - s →
      BeatInv novfn i1 txcost nc s m
        ((List.range' s m).foldl (beatIter novfn i1 nc txcost)
          (novfn, List.replicate novfn.length 0, 0)) := by
  have hnc1 : 1 ≤ nc := by omega
  intro m
  induction m with
  | zero =>
    intro _
    simp only [List.range'_zero, List.foldl_nil]
    unfold BeatInv
    refine ⟨rfl, by simp, fun j _ => rfl,
      fun j _ => getD_replicate _ _ _, ?_, ?_, Or.inl rfl⟩
    · intro i hi hi'; omega
    · intro i hi hi'; omega
  | succ m ih =>
    intro hm
    have hmN : s + m < novfn.length := by omega
    obtain ⟨hlen1, hlen2, hout, hblout, hrec, hblk, hbest⟩ := ih (by omega)
    set st := (List.range' s m).foldl (beatIter novfn i1 nc txcost)
      (novfn, List.replicate novfn.length 0, 0) with hst
    rw [List.range'_1_concat, List.foldl_append, ← hst]
    simp only [List.foldl_cons, List.foldl_nil, beatIter]
    unfold BeatInv
    dsimp only
    set A := beatArgmax (beatSc st.1 i1 txcost (s + m)) nc with hA
    set v := beatSc st.1 i1 txcost (s + m) A + novfn.getD (s + m) 0 with hv
    obtain ⟨mm, hmm⟩ : ∃ mm, nc = mm + 1 := ⟨nc - 1, by omega⟩
    have hAlt : A < nc := by
      rw [hA, hmm]
      exact Nat.lt_succ_of_le (beatArgmax_le _ mm)
    have hbs : beatSc st.1 i1 txcost (s + m) A =
        listMax (beatSc st.1 i1 txcost (s + m)) (nc - 1) := by
      rw [hA, hmm]
      simpa [hmm] using beatArgmax_eq_listMax (beatSc st.1 i1 txcost (s + m)) mm
    -- reads of the candidate scan on behalf of an index i' between s
    -- and s + m lie strictly below i', hence miss the written slot
    have hscro : ∀ i' : ℕ, s ≤ i' → i' ≤ s + m → ∀ k : ℕ, k < nc →
        beatSc (st.1.set (s + m) v) i1 txcost i' k =
          beatSc st.1 i1 txcost i' k := by
      intro i' hs' hle k hk
      unfold beatSc
      congr 1
      refine getD_set_ne _ _ _ _ _ ?_
      have hk' : (k : ℤ) < (nc : ℤ) := Int.ofNat_lt.mpr hk
      have hi' : (s : ℤ) ≤ (i' : ℤ) := Int.ofNat_le.mpr hs'
      have hle' : (i' : ℤ) ≤ ((s + m : ℕ) : ℤ) := Int.ofNat_le.mpr hle
      omega
    have hLM : ∀ i' : ℕ, s ≤ i' → i' ≤ s + m →
        listMax (beatSc (st.1.set (s + m) v) i1 txcost i') (nc - 1) =
          listMax (beatSc st.1 i1 txcost i') (nc - 1) :=
      fun i' ha hb =>
        listMax_congr _ _ _ fun k hk => hscro i' ha hb k (by omega)
    refine ⟨by simpa using hlen1, by simpa using hlen2, ?_, ?_, ?_, ?_, ?_⟩
    · intro j hj
      rw [getD_set_ne _ _ _ _ _ (by omega : s + m ≠ j)]
      exact hout j (by omega)
    · intro j hj
      rw [getD_set_ne _ _ _ _ _ (by omega : s + m ≠ j)]
      exact hblout j (by omega)
    · intro i his hilt
      rcases Nat.lt_or_ge i (s + m) with hcase | hcase
      · rw [getD_set_ne _ _ _ _ _ (by omega : s + m ≠ i),
          hLM i his (by omega)]
        exact hrec i his hcase
      · have hieq : i = s + m := by omega
        subst hieq
        rw [getD_set_self _ _ _ _ (by rw [hlen1]; exact hmN),
          hLM (s + m) his le_rfl, hv, hbs, add_comm]
    · intro i his hilt
      rcases Nat.lt_or_ge i (s + m) with hcase | hcase
      · obtain ⟨ix, hix, hbeq, hmax⟩ := hblk i his hcase
        refine ⟨ix, hix, ?_, ?_⟩
        · rw [getD_set_ne _ _ _ _ _ (by omega : s + m ≠ i)]
          exact hbeq
        · rw [hscro i his (by omega) ix hix, hLM i his (by omega)]
          exact hmax
      · have hieq : i = s + m := by omega
        subst hieq
        refine ⟨A, hAlt, ?_, ?_⟩
        · rw [getD_set_self _ _ _ _ (by rw [hlen2]; exact hmN)]
        · rw [hscro (s + m) his le_rfl A hAlt, hLM (s + m) his le_rfl]
          exact hbs
    · split
      · right
        exact ⟨by omega, by omega⟩
      · rcases hbest with h0 | ⟨ha, hb⟩
        · exact Or.inl h0
        · exact Or.inr ⟨ha, by omega⟩

/-! ### Derived facts about the DP parameters when period is at least 1 -/

theorem beatI1_eq (sr hop tempo : ℚ) :
    beatI1 sr hop tempo = -2 * beatPeriod sr hop tempo := by
  unfold beatI1
  have h : (-2 * (beatPeriod sr hop tempo : ℚ)) =
      ((-2 * beatPeriod sr hop tempo : ℤ) : ℚ) := by push_cast; ring
  rw [h, Int.floor_intCast]

theorem beatI2_le (sr hop tempo : ℚ) (hp : 1 ≤ beatPeriod sr hop tempo) :
    beatI2 sr hop tempo ≤ -1 := by
  have hq : (1 : ℚ) ≤ (beatPeriod sr hop tempo : ℚ) := by exact_mod_cast hp
  have h : ⌊(-(beatPeriod sr hop tempo : ℚ)) / 2⌋ < (0 : ℤ) := by
    refine Int.floor_lt.mpr ?_
    push_cast
    linarith
  unfold beatI2
  omega

theorem beatI1_le_beatI2 (sr hop tempo : ℚ)
    (hp : 1 ≤ beatPeriod sr hop tempo) :
    beatI1 sr hop tempo ≤ beatI2 sr hop tempo := by
  have hq : (1 : ℚ) ≤ (beatPeriod sr hop tempo : ℚ) := by exact_mod_cast hp
  rw [beatI1_eq]
  refine Int.le_floor.mpr ?_
  push_cast
  linarith

theorem beatStart_eq (sr hop tempo : ℚ)
    (hp : 1 ≤ beatPeriod sr hop tempo) :
    ((beatStart sr hop tempo : ℕ) : ℤ) = 1 - beatI1 sr hop tempo := by
  have h1 := beatI1_eq sr hop tempo
  unfold beatStart
  rw [Int.toNat_of_nonneg]
  omega

theorem beatNcand_eq (sr hop tempo : ℚ)
    (hp : 1 ≤ beatPeriod sr hop tempo) :
    ((beatNcand sr hop tempo : ℕ) : ℤ) =
      beatI2 sr hop tempo - beatI1 sr hop tempo + 1 := by
  have h12 := beatI1_le_beatI2 sr hop tempo hp
  unfold beatNcand
  rw [Int.toNat_of_nonneg]
  omega

/-! ### Backtrace analysis -/

theorem backtrace_bounds (bl : List ℤ) (N : ℤ)
    (H : ∀ j : ℤ, 0 ≤ j → j < N →
      bl.getD j.toNat 0 = j ∨
        (0 ≤ bl.getD j.toNat 0 ∧ bl.getD j.toNat 0 < j)) :
    ∀ fuel : ℕ, ∀ j : ℤ, 0 ≤ j → j < N →
      List.Pairwise (fun a b => b < a) (backtrace bl fuel j) ∧
      ∀ x ∈ backtrace bl fuel j, 0 ≤ x ∧ x ≤ j := by
  intro fuel
  induction fuel with
  | zero =>
    intro j h0 hN
    refine ⟨by simp [backtrace], ?_⟩
    intro x hx
    have : x = j := by simpa [backtrace] using hx
    subst this
    exact ⟨h0, le_rfl⟩
  | succ f ihf =>
    intro j h0 hN
    unfold backtrace
    dsimp only
    by_cases hb : bl.getD j.toNat 0 = j
    · rw [if_pos hb]
      refine ⟨by simp, ?_⟩
      intro x hx
      have : x = j := by simpa using hx
      subst this
      exact ⟨h0, le_rfl⟩
    · rw [if_neg hb]
      rcases H j h0 hN with h | ⟨hb0, hblt⟩
      · exact absurd h hb
      · obtain ⟨hpw, hmem⟩ := ihf (bl.getD j.toNat 0) hb0 (by omega)
        constructor
        · refine List.pairwise_cons.mpr ⟨?_, hpw⟩
          intro x hx
          exact lt_of_le_of_lt (hmem x hx).2 hblt
        · intro x hx
          rcases List.mem_cons.mp hx with hx0 | hx'
          · subst hx0
            exact ⟨h0, le_rfl⟩
          · exact ⟨(hmem x hx').1, le_trans (hmem x hx').2 (le_of_lt hblt)⟩


theorem beatDP_inv (novfn : List ℝ) (sr hop tempo : ℚ) (alpha : ℝ)
    (hp : 1 ≤ beatPeriod sr hop tempo) :
    BeatInv novfn (beatI1 sr hop tempo) (beatTxcost sr hop tempo alpha)
      (beatNcand sr hop tempo) (beatStart sr hop tempo)
      (novfn.length - beatStart sr hop tempo)
      (beatDP novfn sr hop tempo alpha) := by
  have h := beatLoop_inv novfn (beatI1 sr hop tempo) (beatI2 sr hop tempo)
    (beatTxcost sr hop tempo alpha) (beatStart sr hop tempo)
    (beatNcand sr hop tempo) (beatStart_eq sr hop tempo hp)
    (beatNcand_eq sr hop tempo hp) (beatI1_le_beatI2 sr hop tempo hp)
    (beatI2_le sr hop tempo hp) (novfn.length - beatStart sr hop tempo)
    le_rfl
  simpa [beatDP] using h

theorem beatDP_backlink_prop (novfn : List ℝ) (sr hop tempo : ℚ)
    (alpha : ℝ) (hp : 1 ≤ beatPeriod sr hop tempo) :
    ∀ j : ℤ, 0 ≤ j → j < (novfn.length : ℤ) →
      (beatDP novfn sr hop tempo alpha).2.1.getD j.toNat 0 = j ∨
        (0 ≤ (beatDP novfn sr hop tempo alpha).2.1.getD j.toNat 0 ∧
          (beatDP novfn sr hop tempo alpha).2.1.getD j.toNat 0 < j) := by
  obtain ⟨_, _, _, hblout, _, hblk, _⟩ := beatDP_inv novfn sr hop tempo alpha hp
  intro j h0 hN
  have hcast : ((j.toNat : ℕ) : ℤ) = j := Int.toNat_of_nonneg h0
  rcases Nat.lt_or_ge j.toNat (beatStart sr hop tempo) with hcase | hcase
  · have h := hblout j.toNat (Or.inl hcase)
    by_cases hj0 : j = 0
    · subst hj0
      exact Or.inl (by simpa using h)
    · right
      rw [h]
      omega
  · have hjN : j.toNat < novfn.length := by omega
    have hcase2 : j.toNat <
        beatStart sr hop tempo +
          (novfn.length - beatStart sr hop tempo) := by omega
    obtain ⟨idx, hidx, heq, _⟩ := hblk j.toNat hcase hcase2
    right
    rw [heq]
    have hI2 := beatI2_le sr hop tempo hp
    have hnc := beatNcand_eq sr hop tempo hp
    have hsq := beatStart_eq sr hop tempo hp
    have hidx' : (idx : ℤ) < ((beatNcand sr hop tempo : ℕ) : ℤ) :=
      Int.ofNat_lt.mpr hidx
    have hsle : ((beatStart sr hop tempo : ℕ) : ℤ) ≤ ((j.toNat : ℕ) : ℤ) :=
      Int.ofNat_le.mpr hcase
    omega

/-- Claim C2: for every non-empty novelty function with
period = floor((60*sr/hop)/tempo) at least 1, the beat sequence
returned by getBeats is strictly increasing and every element is an
integer index in the interval from 0 inclusive to novfn.length
exclusive. -/
theorem c2_beats_sorted (novfn : List ℝ) (sr hop tempo : ℚ) (alpha : ℝ)
    (hne : 0 < novfn.length) (hp : 1 ≤ beatPeriod sr hop tempo) :
    List.Pairwise (fun a b => a < b) (getBeats novfn sr hop tempo alpha) ∧
    ∀ b ∈ getBeats novfn sr hop tempo alpha,
      0 ≤ b ∧ b < (novfn.length : ℤ) := by
  have hH := beatDP_backlink_prop novfn sr hop tempo alpha hp
  have inv := beatDP_inv novfn sr hop tempo alpha hp
  have hbestlt : (beatDP novfn sr hop tempo alpha).2.2 < novfn.length := by
    rcases inv.2.2.2.2.2.2 with h0 | ⟨h1, h2⟩
    · omega
    · omega
  obtain ⟨hpw, hmem⟩ := backtrace_bounds
    ((beatDP novfn sr hop tempo alpha).2.1) (novfn.length : ℤ) hH
    novfn.length (((beatDP novfn sr hop tempo alpha).2.2 : ℕ) : ℤ)
    (Int.ofNat_nonneg _) (Int.ofNat_lt.mpr hbestlt)
  constructor
  · show List.Pairwise (fun a b => a < b)
      ((backtrace (beatDP novfn sr hop tempo alpha).2.1 novfn.length
        (((beatDP novfn sr hop tempo alpha).2.2 : ℕ) : ℤ)).reverse)
    rw [List.pairwise_reverse]
    exact hpw
  · intro b hb
    have hb' : b ∈ backtrace (beatDP novfn sr hop tempo alpha).2.1
        novfn.length (((beatDP novfn sr hop tempo alpha).2.2 : ℕ) : ℤ) := by
      have hb2 : b ∈ (backtrace (beatDP novfn sr hop tempo alpha).2.1
          novfn.length
          (((beatDP novfn sr hop tempo alpha).2.2 : ℕ) : ℤ)).reverse := hb
      exact List.mem_reverse.mp hb2
    refine ⟨(hmem b hb').1, lt_of_le_of_lt (hmem b hb').2 ?_⟩
    exact Int.ofNat_lt.mpr hbestlt

/-- Witness for C2 at novfn = [0], sr = 1, hop = 1, tempo = 30 (so
period = 2) and alpha = 1. -/
theorem c2_witness :
    0 < ([(0 : ℝ)] : List ℝ).length ∧ 1 ≤ beatPeriod 1 1 30 ∧
    (List.Pairwise (fun a b => a < b) (getBeats [(0 : ℝ)] 1 1 30 1) ∧
      ∀ b ∈ getBeats [(0 : ℝ)] 1 1 30 1,
        0 ≤ b ∧ b < (([(0 : ℝ)] : List ℝ).length : ℤ)) :=
  ⟨by decide, by norm_num [beatPeriod],
    c2_beats_sorted [(0 : ℝ)] 1 1 30 1 (by decide) (by norm_num [beatPeriod])⟩

/-- Claim C1 (amended): for positive sr, hop, tempo, alpha with
period at least 1, the forward pass of getBeats satisfies:
period = floor((60*sr/hop)/tempo); window edges i1 = floor(-2*period)
and i2 = floor(-period/2); txcost(k) = -alpha*(ln(-(i1+k)/period))^2
for every candidate k; cscore agrees with novfn below the first
processed index -i1+1; for every index i from -i1+1 to novfn.length-1
the final cscore satisfies cscore[i] = novfn[i] + max over candidates
k of (txcost(k) + cscore[i+i1+k]); and backlink[i] stores the
predecessor index i + i1 + k* for an index k* attaining that maximum
(not the arg-max offset itself, which is the amendment). -/
theorem c1_forward_amended (novfn : List ℝ) (sr hop tempo : ℚ) (alpha : ℝ)
    (hsr : 0 < sr) (hhop : 0 < hop) (htempo : 0 < tempo)
    (halpha : (0 : ℝ) < alpha) (hp : 1 ≤ beatPeriod sr hop tempo) :
    beatPeriod sr hop tempo = ⌊(60 * sr / hop) / tempo⌋ ∧
    beatI1 sr hop tempo = ⌊(-2 * (beatPeriod sr hop tempo : ℚ))⌋ ∧
    beatI2 sr hop tempo = ⌊(-(beatPeriod sr hop tempo : ℚ)) / 2⌋ ∧
    (∀ k : ℕ, k < beatNcand sr hop tempo →
      beatTxcost sr hop tempo alpha k =
        -alpha * (Real.log (((-(beatI1 sr hop tempo + (k : ℤ))) : ℤ) /
          ((beatPeriod sr hop tempo : ℤ) : ℝ))) ^ 2) ∧
    (∀ cs : List ℝ, ∀ i k : ℕ,
      beatSc cs (beatI1 sr hop tempo) (beatTxcost sr hop tempo alpha) i k =
        beatTxcost sr hop tempo alpha k +
          cs.getD ((i : ℤ) + beatI1 sr hop tempo + (k : ℤ)).toNat 0) ∧
    (∀ j : ℕ, j < beatStart sr hop tempo →
      (beatDP novfn sr hop tempo alpha).1.getD j 0 = novfn.getD j 0) ∧
    (∀ i : ℕ, beatStart sr hop tempo ≤ i → i < novfn.length →
      (beatDP novfn sr hop tempo alpha).1.getD i 0 =
        novfn.getD i 0 +
          listMax (beatSc (beatDP novfn sr hop tempo alpha).1
            (beatI1 sr hop tempo) (beatTxcost sr hop tempo alpha) i)
            (beatNcand sr hop tempo - 1)) ∧
    (∀ i : ℕ, beatStart sr hop tempo ≤ i → i < novfn.length →
      ∃ idx : ℕ, idx < beatNcand sr hop tempo ∧
        (beatDP novfn sr hop tempo alpha).2.1.getD i 0 =
          (i : ℤ) + beatI1 sr hop tempo + (idx : ℤ) ∧
        beatSc (beatDP novfn sr hop tempo alpha).1 (beatI1 sr hop tempo)
            (beatTxcost sr hop tempo alpha) i idx =
          listMax (beatSc (beatDP novfn sr hop tempo alpha).1
            (beatI1 sr hop tempo) (beatTxcost sr hop tempo alpha) i)
            (beatNcand sr hop tempo - 1)) := by
  obtain ⟨hlen1, hlen2, hout, hblout, hrec, hblk, hbest⟩ :=
    beatDP_inv novfn sr hop tempo alpha hp
  refine ⟨rfl, rfl, rfl, fun k _ => rfl, fun cs i k => rfl, ?_, ?_, ?_⟩
  · intro j hj
    exact hout j (Or.inl hj)
  · intro i his hilt
    exact hrec i his (by omega)
  · intro i his hilt
    exact hblk i his (by omega)

/-- Witness for C1 at novfn = [], sr = hop = 1, tempo = 30, alpha = 1
(period = 2). -/
theorem c1_witness :
    1 ≤ beatPeriod 1 1 30 ∧ beatPeriod 1 1 30 = ⌊(60 * 1 / 1 : ℚ) / 30⌋ :=
  ⟨by norm_num [beatPeriod],
    (c1_forward_amended [] 1 1 30 1 (by norm_num) (by norm_num)
      (by norm_num) one_pos (by norm_num [beatPeriod])).1⟩

/-- Counterexample for C1 as stated: with novfn = [0,0,0,0,0,0],
sr = hop = 1, tempo = 30 (period 2, i1 = -4, i2 = -1) and alpha = 1,
the only processed index is i = 5; the first maximizing candidate
index is k* = 2, so the arg-max offset is i1 + 2 = -2, yet
backlink[5] holds the predecessor index 5 + i1 + 2 = 3, which is
neither the offset -2 nor the candidate index 2. -/
theorem c1_counterexample :
    (beatDP (List.replicate 6 (0 : ℝ)) 1 1 30 1).2.1.getD 5 0 = 3 ∧
    beatArgmax (beatSc (List.replicate 6 (0 : ℝ)) (beatI1 1 1 30)
      (beatTxcost 1 1 30 1) 5) (beatNcand 1 1 30) = 2 ∧
    beatI1 1 1 30 + (2 : ℤ) = -2 ∧ (3 : ℤ) ≠ -2 ∧ (3 : ℤ) ≠ 2 := by
  have hp2 : beatPeriod 1 1 30 = 2 := by norm_num [beatPeriod]
  have hi1 : beatI1 1 1 30 = -4 := by
    rw [beatI1_eq, hp2]
    decide
  have hi2 : beatI2 1 1 30 = -1 := by
    unfold beatI2
    rw [hp2]
    norm_num
  have hnc4 : beatNcand 1 1 30 = 4 := by
    unfold beatNcand
    rw [hi1, hi2]
    decide
  have hs5 : beatStart 1 1 30 = 5 := by
    unfold beatStart
    rw [hi1]
    decide
  have hF : ∀ k : ℕ, beatSc (List.replicate 6 (0 : ℝ)) (beatI1 1 1 30)
      (beatTxcost 1 1 30 1) 5 k = beatTxcost 1 1 30 1 k := by
    intro k
    unfold beatSc
    rw [getD_replicate, add_zero]
  have l2pos : 0 < Real.log 2 := Real.log_pos (by norm_num)
  have l32pos : 0 < Real.log (3 / 2) := Real.log_pos (by norm_num)
  have l32lt : Real.log (3 / 2) < Real.log 2 :=
    Real.log_lt_log (by norm_num) (by norm_num)
  have ht0 : beatTxcost 1 1 30 1 0 = -1 * Real.log 2 ^ 2 := by
    unfold beatTxcost
    rw [hi1, hp2]
    norm_num
  have ht1 : beatTxcost 1 1 30 1 1 = -1 * Real.log (3 / 2) ^ 2 := by
    unfold beatTxcost
    rw [hi1, hp2]
    norm_num
  have ht2 : beatTxcost 1 1 30 1 2 = 0 := by
    unfold beatTxcost
    rw [hi1, hp2]
    norm_num
  have ht3 : beatTxcost 1 1 30 1 3 = -1 * Real.log 2 ^ 2 := by
    unfold beatTxcost
    rw [hi1, hp2]
    norm_num
    rw [(by rw [one_div, Real.log_inv] : Real.log (1 / 2) = -Real.log 2)]
    ring
  have e1 : ¬ (beatSc (List.replicate 6 (0 : ℝ)) (beatI1 1 1 30)
      (beatTxcost 1 1 30 1) 5 0 < beatSc (List.replicate 6 (0 : ℝ))
      (beatI1 1 1 30) (beatTxcost 1 1 30 1) 5 0) := lt_irrefl _
  have e2 : beatSc (List.replicate 6 (0 : ℝ)) (beatI1 1 1 30)
      (beatTxcost 1 1 30 1) 5 0 < beatSc (List.replicate 6 (0 : ℝ))
      (beatI1 1 1 30) (beatTxcost 1 1 30 1) 5 1 := by
    rw [hF 0, hF 1, ht0, ht1]
    have hsq : Real.log (3 / 2) ^ 2 < Real.log 2 ^ 2 :=
      pow_lt_pow_left₀ l32lt (le_of_lt l32pos) (by norm_num)
    linarith
  have e3 : beatSc (List.replicate 6 (0 : ℝ)) (beatI1 1 1 30)
      (beatTxcost 1 1 30 1) 5 1 < beatSc (List.replicate 6 (0 : ℝ))
      (beatI1 1 1 30) (beatTxcost 1 1 30 1) 5 2 := by
    rw [hF 1, hF 2, ht1, ht2]
    have hsq : 0 < Real.log (3 / 2) ^ 2 := pow_pos l32pos 2
    linarith
  have e4 : ¬ (beatSc (List.replicate 6 (0 : ℝ)) (beatI1 1 1 30)
      (beatTxcost 1 1 30 1) 5 2 < beatSc (List.replicate 6 (0 : ℝ))
      (beatI1 1 1 30) (beatTxcost 1 1 30 1) 5 3) := by
    rw [hF 2, hF 3, ht2, ht3]
    have hsq : 0 ≤ Real.log 2 ^ 2 := sq_nonneg _
    intro hcon
    linarith
  have hA : beatArgmax (beatSc (List.replicate 6 (0 : ℝ)) (beatI1 1 1 30)
      (beatTxcost 1 1 30 1) 5) 4 = 2 := by
    unfold beatArgmax
    have hr : List.range 4 = [0, 1, 2, 3] := rfl
    rw [hr]
    simp only [List.foldl_cons, List.foldl_nil]
    rw [if_neg e1, if_pos e2, if_pos e3, if_neg e4]
  refine ⟨?_, by rw [hnc4]; exact hA, by rw [hi1]; decide, by decide,
    by decide⟩
  have hglen : (List.replicate 6 (0 : ℝ)).length = 6 := by simp
  unfold beatDP
  dsimp only
  rw [hglen, hs5]
  have hr51 : List.range' 5 (6 - 5) = [5] := rfl
  rw [hr51]
  simp only [List.foldl_cons, List.foldl_nil]
  unfold beatIter
  dsimp only
  rw [hnc4, hA]
  rw [getD_set_self _ _ _ _ (by decide), hi1]
  norm_num

/-- Claim C5 (amended): getBeats performs no length validation; when
the novelty function is non-empty and its length is at most
2*period+1 = -i1+1, the DP loop body never runs and getBeats returns
the single-element beat sequence [0] instead of failing. -/
theorem c5_short_novfn_amended (novfn : List ℝ) (sr hop tempo : ℚ)
    (alpha : ℝ) (hne : 0 < novfn.length)
    (hp : 1 ≤ beatPeriod sr hop tempo)
    (hshort : (novfn.length : ℤ) ≤ 2 * beatPeriod sr hop tempo + 1) :
    getBeats novfn sr hop tempo alpha = [0] := by
  have hs := beatStart_eq sr hop tempo hp
  have hI1 := beatI1_eq sr hop tempo
  have hNs : novfn.length - beatStart sr hop tempo = 0 := by omega
  obtain ⟨M, hM⟩ : ∃ M, novfn.length = M + 1 := ⟨novfn.length - 1, by omega⟩
  unfold getBeats beatDP
  dsimp only
  rw [hNs]
  simp only [List.range'_zero, List.foldl_nil]
  rw [hM]
  simp [backtrace, getD_replicate]

/-- Witness for C5 (amended) at novfn = [5], sr = hop = 1,
tempo = 30, alpha = 0 (period 2, length 1 at most 5). -/
theorem c5_witness :
    0 < ([(5 : ℝ)] : List ℝ).length ∧ 1 ≤ beatPeriod 1 1 30 ∧
    (([(5 : ℝ)] : List ℝ).length : ℤ) ≤ 2 * beatPeriod 1 1 30 + 1 ∧
    getBeats [(5 : ℝ)] 1 1 30 0 = [0] :=
  ⟨by decide, by norm_num [beatPeriod], by norm_num [beatPeriod],
    c5_short_novfn_amended [(5 : ℝ)] 1 1 30 0 (by decide)
      (by norm_num [beatPeriod]) (by norm_num [beatPeriod])⟩

/-- Counterexample for C5 as stated: with novfn = [1,2,1] of length 3
at most 2*period+1 = 5 (sr = hop = 1, tempo = 30, period 2), getBeats
does not fail: it returns the beat sequence [0]. -/
theorem c5_counterexample : getBeats [(1 : ℝ), 2, 1] 1 1 30 1 = [0] := by
  have hp2 : beatPeriod 1 1 30 = 2 := by norm_num [beatPeriod]
  have hi1 : beatI1 1 1 30 = -4 := by
    rw [beatI1_eq, hp2]
    decide
  have h5 : beatStart 1 1 30 = 5 := by
    unfold beatStart
    rw [hi1]
    decide
  have hNs : ([(1 : ℝ), 2, 1] : List ℝ).length - beatStart 1 1 30 = 0 := by
    rw [h5]
    decide
  unfold getBeats beatDP
  dsimp only
  rw [hNs]
  simp only [List.range'_zero, List.foldl_nil]
  simp [backtrace, getD_replicate]

/-! ### Spectrogram claims -/

/-- Claim C6 (amended): getSpectrogram performs no input validation;
when samples.length < win the frame count W = floor(1+(len-win)/hop)
is at most 0, so the frame loop runs no iteration and the empty
spectrogram is returned instead of an InsufficientSamplesError. -/
theorem c6_short_samples_amended (fft : List ℝ → ℕ → ℝ × ℝ)
    (samples : List ℝ) (win hop : ℕ) (useDb : Bool)
    (hlt : samples.length < win) (hhop : 0 < hop) :
    getSpectrogram fft samples win hop useDb = [] := by
  have hW : specW samples.length win hop = 0 := by
    unfold specW
    have hn : ((samples.length : ℚ)) < (win : ℚ) := by exact_mod_cast hlt
    have hh : (0 : ℚ) < (hop : ℚ) := by exact_mod_cast hhop
    have hneg : ((samples.length : ℚ) - (win : ℚ)) / (hop : ℚ) < 0 :=
      div_neg_of_neg_of_pos (by linarith) hh
    have hfl : ⌊(1 : ℚ) + ((samples.length : ℚ) - (win : ℚ)) / (hop : ℚ)⌋ <
        (1 : ℤ) := by
      refine Int.floor_lt.mpr ?_
      push_cast
      linarith
    omega
  unfold getSpectrogram
  rw [hW]
  rfl

/-- Witness for C6 (amended) at samples = [0,0], win = 3, hop = 1. -/
theorem c6_witness :
    ([(0 : ℝ), 0] : List ℝ).length < 3 ∧ 0 < 1 ∧
    getSpectrogram (fun _ _ => ((0 : ℝ), 0)) [(0 : ℝ), 0] 3 1 false = [] :=
  ⟨by decide, by decide,
    c6_short_samples_amended (fun _ _ => ((0 : ℝ), 0)) [(0 : ℝ), 0] 3 1
      false (by decide) (by decide)⟩

/-- Counterexample for C6 as stated: with two samples and win = 4
(len < win), getSpectrogram does not fail with a typed error at
entry: it returns the empty spectrogram. -/
theorem c6_counterexample :
    getSpectrogram (fun _ _ => ((0 : ℝ), 0)) [(0 : ℝ), 0] 4 2 true = [] := by
  have hW : specW ([(0 : ℝ), 0] : List ℝ).length 4 2 = 0 := by
    norm_num [specW]
  unfold getSpectrogram
  rw [hW]
  rfl

/-- Claim C8: in every spectrogram frame and bin within range, the
linear-magnitude value is non-negative, and wherever the spectral
power is non-zero the dB-mode value equals 10*log10 of the square of
the linear-magnitude value. -/
theorem c8_db_magnitude (fft : List ℝ → ℕ → ℝ × ℝ) (samples : List ℝ)
    (win hop : ℕ) :
    (∀ i k : ℕ, i < specW samples.length win hop → k < win / 2 + 1 →
      0 ≤ ((getSpectrogram fft samples win hop false).getD i []).getD k 0) ∧
    (∀ i k : ℕ, i < specW samples.length win hop → k < win / 2 + 1 →
      specPower fft samples win hop i k ≠ 0 →
      ((getSpectrogram fft samples win hop true).getD i []).getD k 0 =
        10 * Real.logb 10
          ((((getSpectrogram fft samples win hop false).getD i []).getD k 0)
            ^ 2)) := by
  have hentry : ∀ (b : Bool) (i k : ℕ), i < specW samples.length win hop →
      k < win / 2 + 1 →
      ((getSpectrogram fft samples win hop b).getD i []).getD k 0 =
        (if b then 10 * Real.logb 10 (specPower fft samples win hop i k)
          else Real.sqrt (specPower fft samples win hop i k)) := by
    intro b i k hi hk
    unfold getSpectrogram
    rw [getD_range_map _ _ _ _ hi, getD_range_map _ _ _ _ hk]
  have hpow : ∀ i k : ℕ, 0 ≤ specPower fft samples win hop i k := by
    intro i k
    unfold specPower
    exact add_nonneg (mul_self_nonneg _) (mul_self_nonneg _)
  constructor
  · intro i k hi hk
    rw [hentry false i k hi hk]
    simp only [Bool.false_eq_true, if_false]
    exact Real.sqrt_nonneg _
  · intro i k hi hk hnz
    rw [hentry true i k hi hk, hentry false i k hi hk]
    simp only [if_true, Bool.false_eq_true, if_false]
    rw [Real.sq_sqrt (hpow i k)]

/-- Witness for C8 with a constant FFT stub returning (1, 0), three
samples, win = 2, hop = 1, at frame 0 and bin 0. -/
theorem c8_witness :
    0 < specW 3 2 1 ∧ 0 < 2 / 2 + 1 ∧
    specPower (fun _ _ => ((1 : ℝ), 0)) [(0 : ℝ), 0, 0] 2 1 0 0 ≠ 0 ∧
    ((getSpectrogram (fun _ _ => ((1 : ℝ), 0)) [(0 : ℝ), 0, 0] 2 1
        true).getD 0 []).getD 0 0 =
      10 * Real.logb 10
        ((((getSpectrogram (fun _ _ => ((1 : ℝ), 0)) [(0 : ℝ), 0, 0] 2 1
          false).getD 0 []).getD 0 0) ^ 2) :=
  ⟨by norm_num [specW], by decide, by simp [specPower],
    (c8_db_magnitude (fun _ _ => ((1 : ℝ), 0)) [(0 : ℝ), 0, 0] 2 1).2 0 0
      (by norm_num [specW]) (by decide) (by simp [specPower])⟩

/-! ### Superflux claim -/

theorem ite_pos_eq_max (d : ℝ) : (if 0 < d then d else 0) = max 0 d := by
  split
  · next h => exact (max_eq_right (le_of_lt h)).symm
  · next h => exact (max_eq_left (le_of_not_lt h)).symm

/-- Claim C9: getSuperfluxNovfn defaults mu to 3 and Gamma to 1,
computes the log mel spectrogram by projecting the linear-magnitude
spectrogram through the 138-bin mel filterbank from 27.5 Hz to
min(16000, sr/2) Hz and applying log10(entry + Gamma), and produces
the novelty function of length W - mu whose entry i is the sum over
the 138 mel bins of max(0, S[i+mu][k] - S[i][k]). -/
theorem c9_superflux (fft : List ℝ → ℕ → ℝ × ℝ) (samples : List ℝ)
    (sr : ℚ) (win hop mu : ℕ) (Gamma : ℝ) :
    getSuperfluxNovfnDefaults fft samples sr win hop =
      getSuperfluxNovfn fft samples sr win hop 3 1 ∧
    (mu ≤ specW samples.length win hop →
      (getSuperfluxNovfn fft samples sr win hop mu Gamma).length =
        specW samples.length win hop - mu) ∧
    (superfluxLogMel fft samples sr win hop Gamma).length =
      specW samples.length win hop ∧
    (∀ i : ℕ, i < specW samples.length win hop - mu →
      (getSuperfluxNovfn fft samples sr win hop mu Gamma).getD i 0 =
        ((List.range 138).map fun k =>
          max 0
            (((superfluxLogMel fft samples sr win hop Gamma).getD
                (i + mu) []).getD k 0 -
              ((superfluxLogMel fft samples sr win hop Gamma).getD
                i []).getD k 0)).sum) ∧
    superfluxLogMel fft samples sr win hop Gamma =
      (melDot (getSpectrogram fft samples win hop false)
        (fun k j =>
          getMelFilterbank win sr (55 / 2) (min 16000 (sr / 2)) 138 (k : ℤ) j)
        (win / 2 + 1) 138).map
        (fun row => row.map fun x => Real.logb 10 (x + Gamma)) := by
  have hlen : (superfluxLogMel fft samples sr win hop Gamma).length =
      specW samples.length win hop := by
    unfold superfluxLogMel melDot getSpectrogram
    simp
  refine ⟨rfl, ?_, hlen, ?_, rfl⟩
  · intro _
    unfold getSuperfluxNovfn
    rw [List.length_map, List.length_range, hlen]
  · intro i hi
    have hi' : i <
        (superfluxLogMel fft samples sr win hop Gamma).length - mu := by
      rw [hlen]
      exact hi
    unfold getSuperfluxNovfn
    rw [getD_range_map _ _ _ _ hi']
    congr 1
    refine List.map_congr_left fun k _ => ?_
    exact ite_pos_eq_max _

/-- Witness for C9 with a constant-zero FFT stub, four samples,
win = 2, hop = 1, so that W = 3 and the default gap mu = 3 exhausts
the spectrogram. -/
theorem c9_witness :
    (3 : ℕ) ≤ specW 4 2 1 ∧
    (getSuperfluxNovfn (fun _ _ => ((0 : ℝ), 0)) [(0 : ℝ), 0, 0, 0] 1 2 1 3
      1).length = specW 4 2 1 - 3 :=
  ⟨by norm_num [specW],
    (c9_superflux (fun _ _ => ((0 : ℝ), 0)) [(0 : ℝ), 0, 0, 0] 1 2 1 3
      1).2.1 (by norm_num [specW])⟩

/-! ### Mel filterbank claim -/

theorem melBins_mono (win : ℕ) (sr minFreq maxFreq : ℚ) (nBins : ℕ)
    (hsr : 0 < sr) (hmin : 0 < minFreq) (hmm : minFreq ≤ maxFreq) (j : ℕ) :
    melBins win sr minFreq maxFreq nBins j ≤
      melBins win sr minFreq maxFreq nBins (j + 1) := by
  unfold melBins
  refine round_mono_le ?_
  have hb0 : (0 : ℝ) ≤ ((melBin0 win sr minFreq : ℚ) : ℝ) := by
    have h : (0 : ℚ) ≤ melBin0 win sr minFreq := by
      unfold melBin0
      have h1 : (0 : ℚ) ≤ minFreq * (win : ℚ) := by positivity
      exact div_nonneg h1 (le_of_lt hsr)
    exact_mod_cast h
  have hminR : (0 : ℝ) < ((minFreq : ℚ) : ℝ) := by exact_mod_cast hmin
  have hmmR : ((minFreq : ℚ) : ℝ) ≤ ((maxFreq : ℚ) : ℝ) := by
    exact_mod_cast hmm
  have hratio : (1 : ℝ) ≤ ((maxFreq : ℚ) : ℝ) / ((minFreq : ℚ) : ℝ) := by
    rw [le_div_iff₀ hminR, one_mul]
    exact hmmR
  have ha : (1 : ℝ) ≤ melA minFreq maxFreq nBins := by
    unfold melA
    calc (1 : ℝ) = Real.exp 0 := Real.exp_zero.symm
    _ ≤ _ := Real.exp_le_exp.mpr
      (div_nonneg (Real.log_nonneg hratio) (by positivity))
  exact mul_le_mul_of_nonneg_left (pow_le_pow_right₀ ha (Nat.le_succ j)) hb0

theorem melEdges_lt (bins : ℕ → ℤ) (i : ℕ) (h1 : bins i ≤ bins (i + 1)) :
    (melEdges bins i).1 < (melEdges bins i).2.1 ∧
    (melEdges bins i).2.1 < (melEdges bins i).2.2 := by
  unfold melEdges
  dsimp only
  by_cases hc : bins (i + 1) = bins i
  · rw [if_pos hc]
    by_cases hc3 : bins (i + 2) ≤ bins (i + 1) + 1
    · rw [if_pos hc3]
      exact ⟨by omega, by omega⟩
    · rw [if_neg hc3]
      exact ⟨by omega, by omega⟩
  · rw [if_neg hc]
    by_cases hc3 : bins (i + 2) ≤ bins (i + 1)
    · rw [if_pos hc3]
      exact ⟨by omega, by omega⟩
    · rw [if_neg hc3]
      exact ⟨by omega, by omega⟩

theorem melValue_spec (bins : ℕ → ℤ) (i : ℕ)
    (h12 : (melEdges bins i).1 < (melEdges bins i).2.1)
    (h23 : (melEdges bins i).2.1 < (melEdges bins i).2.2) :
    (∀ k : ℤ, k < (melEdges bins i).1 ∨ (melEdges bins i).2.2 ≤ k →
      melValue bins i k = 0) ∧
    (∀ k : ℤ, melValue bins i k = 1 ↔ k = (melEdges bins i).2.1) ∧
    (∀ k : ℤ, (melEdges bins i).1 ≤ k → k < (melEdges bins i).2.1 →
      melValue bins i k =
        ((k - (melEdges bins i).1 : ℤ) : ℝ) /
          (((melEdges bins i).2.1 - (melEdges bins i).1 : ℤ) : ℝ)) ∧
    (∀ k : ℤ, (melEdges bins i).2.1 ≤ k → k < (melEdges bins i).2.2 →
      melValue bins i k =
        (((melEdges bins i).2.2 - k : ℤ) : ℝ) /
          (((melEdges bins i).2.2 - (melEdges bins i).2.1 : ℤ) : ℝ)) := by
  rcases hE : melEdges bins i with ⟨i1, i2, i3⟩
  rw [hE] at h12 h23
  dsimp only at h12 h23
  simp only [hE]
  have hval : ∀ k : ℤ, melValue bins i k =
      if i1 ≤ k ∧ k < i2 then
        (1 / ((i2 : ℝ) - (i1 : ℝ))) * ((k : ℝ) - (i1 : ℝ))
      else if i2 ≤ k ∧ k < i3 then
        1 + (-1 / ((i3 : ℝ) - (i2 : ℝ))) * ((k : ℝ) - (i2 : ℝ))
      else 0 := by
    intro k
    simp only [melValue, hE]
  have h21R : (0 : ℝ) < (i2 : ℝ) - (i1 : ℝ) := by
    have h : ((i1 : ℝ)) < (i2 : ℝ) := by exact_mod_cast h12
    linarith
  have h32R : (0 : ℝ) < (i3 : ℝ) - (i2 : ℝ) := by
    have h : ((i2 : ℝ)) < (i3 : ℝ) := by exact_mod_cast h23
    linarith
  refine ⟨?_, ?_, ?_, ?_⟩
  · intro k hk
    rw [hval k, if_neg (by omega), if_neg (by omega)]
  · intro k
    constructor
    · intro hone
      rw [hval k] at hone
      by_cases hc1 : i1 ≤ k ∧ k < i2
      · rw [if_pos hc1] at hone
        exfalso
        have hkR : ((k : ℝ)) < (i2 : ℝ) := by exact_mod_cast hc1.2
        have hkR2 : ((i1 : ℝ)) ≤ (k : ℝ) := by exact_mod_cast hc1.1
        have hlt : (1 / ((i2 : ℝ) - (i1 : ℝ))) * ((k : ℝ) - (i1 : ℝ)) < 1 := by
          rw [one_div, inv_mul_eq_div, div_lt_one h21R]
          linarith
        linarith
      · rw [if_neg hc1] at hone
        by_cases hc2 : i2 ≤ k ∧ k < i3
        · rw [if_pos hc2] at hone
          have hz : (-1 / ((i3 : ℝ) - (i2 : ℝ))) * ((k : ℝ) - (i2 : ℝ)) = 0 := by
            linarith
          have hne : (-1 / ((i3 : ℝ) - (i2 : ℝ))) ≠ 0 := by
            refine div_ne_zero (by norm_num) (by linarith)
          have hk2 : ((k : ℝ)) - (i2 : ℝ) = 0 :=
            (mul_eq_zero.mp hz).resolve_left hne
          have hk3 : ((k : ℝ)) = (i2 : ℝ) := by linarith
          exact_mod_cast hk3
        · rw [if_neg hc2] at hone
          exact absurd hone (by norm_num)
    · intro hk
      subst hk
      rw [hval k, if_neg (by omega), if_pos ⟨le_rfl, h23⟩]
      ring
  · intro k hk1 hk2
    rw [hval k, if_pos ⟨hk1, hk2⟩, one_div, inv_mul_eq_div]
    push_cast
    ring
  · intro k hk1 hk2
    rw [hval k, if_neg (by omega), if_pos ⟨hk1, hk2⟩]
    have hne : ((i3 : ℝ)) - (i2 : ℝ) ≠ 0 := ne_of_gt h32R
    field_simp

/-- Claim C7: for valid parameters (positive sample rate and
minimum frequency, minFreq at most maxFreq), every column i of the
mel filterbank is zero at every row outside its guarded triangular
support, attains the value 1 at exactly its center bin, rises
linearly from 0 on the rising edge and falls linearly to 0 on the
falling edge, the degenerate-triangle guards being applied first
(the edges below are the post-guard melEdges). -/
theorem c7_mel_triangles (win : ℕ) (sr minFreq maxFreq : ℚ) (nBins : ℕ)
    (hwin : 0 < win) (hsr : 0 < sr) (hmin : 0 < minFreq)
    (hminmax : minFreq ≤ maxFreq) (i : ℕ) (hi : i < nBins) :
    (melEdges (melBins win sr minFreq maxFreq nBins) i).1 <
      (melEdges (melBins win sr minFreq maxFreq nBins) i).2.1 ∧
    (melEdges (melBins win sr minFreq maxFreq nBins) i).2.1 <
      (melEdges (melBins win sr minFreq maxFreq nBins) i).2.2 ∧
    (∀ k : ℤ, k < (melEdges (melBins win sr minFreq maxFreq nBins) i).1 ∨
        (melEdges (melBins win sr minFreq maxFreq nBins) i).2.2 ≤ k →
      getMelFilterbank win sr minFreq maxFreq nBins k i = 0) ∧
    (∀ k : ℤ, getMelFilterbank win sr minFreq maxFreq nBins k i = 1 ↔
      k = (melEdges (melBins win sr minFreq maxFreq nBins) i).2.1) ∧
    (∀ k : ℤ, (melEdges (melBins win sr minFreq maxFreq nBins) i).1 ≤ k →
        k < (melEdges (melBins win sr minFreq maxFreq nBins) i).2.1 →
      getMelFilterbank win sr minFreq maxFreq nBins k i =
        ((k - (melEdges (melBins win sr minFreq maxFreq nBins) i).1 : ℤ) : ℝ) /
          (((melEdges (melBins win sr minFreq maxFreq nBins) i).2.1 -
            (melEdges (melBins win sr minFreq maxFreq nBins) i).1 : ℤ) : ℝ)) ∧
    (∀ k : ℤ, (melEdges (melBins win sr minFreq maxFreq nBins) i).2.1 ≤ k →
        k < (melEdges (melBins win sr minFreq maxFreq nBins) i).2.2 →
      getMelFilterbank win sr minFreq maxFreq nBins k i =
        (((melEdges (melBins win sr minFreq maxFreq nBins) i).2.2 - k : ℤ) :
            ℝ) /
          (((melEdges (melBins win sr minFreq maxFreq nBins) i).2.2 -
            (melEdges (melBins win sr minFreq maxFreq nBins) i).2.1 : ℤ) :
            ℝ)) := by
  have hmono := melBins_mono win sr minFreq maxFreq nBins hsr hmin hminmax i
  obtain ⟨h12, h23⟩ :=
    melEdges_lt (melBins win sr minFreq maxFreq nBins) i hmono
  obtain ⟨hz, hone, hr, hf⟩ :=
    melValue_spec (melBins win sr minFreq maxFreq nBins) i h12 h23
  exact ⟨h12, h23, hz, hone, hr, hf⟩

/-- Witness for C7 at the Superflux parameters win = 1024,
sr = 44100, minFreq = 27.5, maxFreq = 16000, nBins = 138, column 0. -/
theorem c7_witness :
    (0 : ℕ) < 1024 ∧ (0 : ℚ) < 44100 ∧ (0 : ℚ) < 55 / 2 ∧
    (55 / 2 : ℚ) ≤ 16000 ∧ (0 : ℕ) < 138 ∧
    (melEdges (melBins 1024 44100 (55 / 2) 16000 138) 0).1 <
      (melEdges (melBins 1024 44100 (55 / 2) 16000 138) 0).2.1 :=
  ⟨by decide, by norm_num, by norm_num, by norm_num, by decide,
    (c7_mel_triangles 1024 44100 (55 / 2) 16000 138 (by decide)
      (by norm_num) (by norm_num) (by norm_num) 0 (by decide)).1⟩

/-! ### Online tracker helper lemmas -/

theorem getD_entry_nonneg (l : List ℝ) (h : ∀ x ∈ l, 0 ≤ x) (j : ℕ) :
    0 ≤ l.getD j 0 := by
  rcases Nat.lt_or_ge j l.length with hj | hj
  · rw [List.getD_eq_getElem?_getD, List.getElem?_eq_getElem hj]
    simpa using h _ (List.getElem_mem hj)
  · rw [List.getD_eq_getElem?_getD, List.getElem?_eq_none hj]
    exact le_rfl

theorem getD_row_cases (L : List (List ℝ)) (i : ℕ) :
    L.getD i [] = [] ∨ L.getD i [] ∈ L := by
  rcases Nat.lt_or_ge i L.length with hi | hi
  · right
    rw [List.getD_eq_getElem?_getD, List.getElem?_eq_getElem hi]
    simp only [Option.getD_some]
    exact List.getElem_mem hi
  · left
    rw [List.getD_eq_getElem?_getD, List.getElem?_eq_none hi]
    rfl

theorem getD_row_nonneg (L : List (List ℝ))
    (h : ∀ r ∈ L, ∀ x ∈ r, 0 ≤ x) (i : ℕ) :
    ∀ x ∈ L.getD i [], 0 ≤ x := by
  rcases getD_row_cases L i with he | hm
  · rw [he]
    intro x hx
    exact absurd hx (List.not_mem_nil x)
  · exact h _ hm

theorem getLastD_entry_nonneg (l : List ℝ) (h : ∀ x ∈ l, 0 ≤ x) :
    0 ≤ l.getLastD 0 := by
  rcases List.mem_cons.mp (List.getLastD_mem_cons l 0) with h0 | hl
  · rw [h0]
  · exact h _ hl

theorem filterMax_pos (st : OnlineBeat) (nov : ℝ) (hmax : 0 < st.max) :
    0 < filterMax st nov := by
  unfold filterMax
  split
  · next h => linarith
  · next h => exact hmax

theorem filterMax_eq_max (st : OnlineBeat) (nov : ℝ) :
    filterMax st nov = max st.max nov := by
  unfold filterMax
  split
  · next h => exact (max_eq_right (le_of_lt h)).symm
  · next h => exact (max_eq_left (le_of_not_lt h)).symm

theorem filterG_nonneg (st : OnlineBeat)
    (hf : ∀ r ∈ st.f, ∀ x ∈ r, 0 ≤ x)
    (hb : ∀ r ∈ st.btrans, ∀ x ∈ r, 0 ≤ x) :
    ∀ r ∈ filterG st, ∀ x ∈ r, 0 ≤ x := by
  intro r hr x hx
  unfold filterG at hr
  obtain ⟨i, hi, hri⟩ := List.mem_map.mp hr
  subst hri
  rcases List.mem_cons.mp hx with hx0 | hx'
  · subst hx0
    refine List.sum_nonneg ?_
    intro y hy
    obtain ⟨j, hj, hyj⟩ := List.mem_map.mp hy
    subst hyj
    refine mul_nonneg ?_ ?_
    · exact getD_entry_nonneg _ (getD_row_nonneg st.btrans hb i) j
    · exact getLastD_entry_nonneg _ (getD_row_nonneg st.f hf j)
  · exact getD_row_nonneg st.f hf i x (List.dropLast_subset _ hx')

theorem filterG2_nonneg (st : OnlineBeat) (nov : ℝ)
    (hf : ∀ r ∈ st.f, ∀ x ∈ r, 0 ≤ x)
    (hb : ∀ r ∈ st.btrans, ∀ x ∈ r, 0 ≤ x)
    (hg : 0 ≤ st.gamma) (hmax : 0 < st.max) (hnov : 0 ≤ nov) :
    ∀ r ∈ filterG2 st nov, ∀ x ∈ r, 0 ≤ x := by
  have hpb : 0 ≤ filterPBeat st nov :=
    div_nonneg hnov (le_of_lt (filterMax_pos st nov hmax))
  intro r hr x hx
  unfold filterG2 at hr
  obtain ⟨r0, hr0, hrr⟩ := List.mem_map.mp hr
  have hr0nn := filterG_nonneg st hf hb r0 hr0
  cases r0 with
  | nil =>
    subst hrr
    exact absurd hx (List.not_mem_nil x)
  | cons b rest =>
    subst hrr
    rcases List.mem_cons.mp hx with hx0 | hx'
    · subst hx0
      exact mul_nonneg (hr0nn b (List.mem_cons_self b rest)) hpb
    · obtain ⟨y, hy, hyx⟩ := List.mem_map.mp hx'
      subst hyx
      exact mul_nonneg (hr0nn y (List.mem_cons_of_mem b hy)) hg

theorem filterNorm_nonneg (st : OnlineBeat) (nov : ℝ)
    (hf : ∀ r ∈ st.f, ∀ x ∈ r, 0 ≤ x)
    (hb : ∀ r ∈ st.btrans, ∀ x ∈ r, 0 ≤ x)
    (hg : 0 ≤ st.gamma) (hmax : 0 < st.max) (hnov : 0 ≤ nov) :
    0 ≤ filterNorm st nov := by
  have h2 := filterG2_nonneg st nov hf hb hg hmax hnov
  unfold filterNorm pmfSum
  refine List.sum_nonneg ?_
  intro y hy
  obtain ⟨r, hr, hry⟩ := List.mem_map.mp hy
  subst hry
  exact List.sum_nonneg (h2 r hr)

theorem filter_beat_slot_zero (st : OnlineBeat) (i : ℕ) :
    ((st.filter 0).f.getD i []).getD 0 0 = 0 := by
  show ((((filterG2 st 0).map fun r =>
      r.map fun x => x / filterNorm st 0).getD i []).getD 0 0) = 0
  rw [getD_map_of_default (fun r => r.map fun x => x / filterNorm st 0)
    [] [] rfl]
  have hstep : (filterG2 st 0).getD i [] =
      (fun r => match r with
        | [] => ([] : List ℝ)
        | b :: rest =>
          (b * filterPBeat st 0) :: rest.map fun x => x * st.gamma)
        ((filterG st).getD i []) := by
    unfold filterG2
    exact getD_map_of_default _ [] [] rfl _ i
  rw [hstep]
  cases hrow : (filterG st).getD i [] with
  | nil => simp
  | cons b rest =>
    dsimp only
    simp [filterPBeat]

theorem filterRun_max (st : OnlineBeat) (l : List ℝ) :
    (filterRun st l).max = l.foldl (fun m x => max m x) st.max := by
  induction l generalizing st with
  | nil => rfl
  | cons a t ih =>
    show (filterRun (st.filter a) t).max = t.foldl _ (max st.max a)
    rw [ih]
    congr 1
    exact filterMax_eq_max st a

/-! ### Online tracker claims -/

/-- Claim C3: after every successful filter step (one whose
normalization constant is non-zero) with a non-negative novelty
sample, starting from a state whose probability rows and transition
table are entrywise non-negative, whose gamma is non-negative and
whose running max is positive, all entries of the updated probability
mass function are non-negative and their total sum equals 1; the
hypotheses themselves are preserved, so the invariant propagates
along any run of successful filter calls. -/
theorem c3_filter_pmf (st : OnlineBeat) (nov : ℝ)
    (hf : ∀ r ∈ st.f, ∀ x ∈ r, 0 ≤ x)
    (hb : ∀ r ∈ st.btrans, ∀ x ∈ r, 0 ≤ x)
    (hg : 0 ≤ st.gamma) (hmax : 0 < st.max) (hnov : 0 ≤ nov)
    (hnorm : filterNorm st nov ≠ 0) :
    (∀ r ∈ (st.filter nov).f, ∀ x ∈ r, 0 ≤ x) ∧
    pmfSum (st.filter nov).f = 1 ∧
    (∀ r ∈ (st.filter nov).btrans, ∀ x ∈ r, 0 ≤ x) ∧
    0 ≤ (st.filter nov).gamma ∧ 0 < (st.filter nov).max := by
  have h2 := filterG2_nonneg st nov hf hb hg hmax hnov
  have hnn := filterNorm_nonneg st nov hf hb hg hmax hnov
  refine ⟨?_, ?_, hb, hg, filterMax_pos st nov hmax⟩
  · intro r hr x hx
    obtain ⟨r0, hr0, hrr⟩ := List.mem_map.mp hr
    subst hrr
    obtain ⟨y, hy, hyx⟩ := List.mem_map.mp hx
    subst hyx
    exact div_nonneg (h2 r0 hr0 y hy) hnn
  · show pmfSum ((filterG2 st nov).map fun r =>
      r.map fun x => x / filterNorm st nov) = 1
    unfold pmfSum
    rw [List.map_map]
    have hrows : (filterG2 st nov).map
        (List.sum ∘ fun r => r.map fun x => x / filterNorm st nov) =
        (filterG2 st nov).map fun r => r.sum / filterNorm st nov := by
      refine List.map_congr_left fun r _ => ?_
      exact sum_map_div r _
    rw [hrows]
    have hsplit : (filterG2 st nov).map
        (fun r => r.sum / filterNorm st nov) =
        ((filterG2 st nov).map List.sum).map
          fun y => y / filterNorm st nov := by
      rw [List.map_map]
      rfl
    rw [hsplit, sum_map_div]
    exact div_self hnorm

/-- Witness for C3 at the one-level state with f = [[1]], Ms = [1],
btrans = [[1]], max = 1, gamma = 0 and novelty sample 1. -/
theorem c3_witness :
    (∀ r ∈ ([[(1 : ℝ)]] : List (List ℝ)), ∀ x ∈ r, 0 ≤ x) ∧
    (0 : ℝ) ≤ 0 ∧ (0 : ℝ) < 1 ∧ (0 : ℝ) ≤ 1 ∧
    filterNorm (⟨[[(1 : ℝ)]], [1], [[(1 : ℝ)]], 1, 0, 0⟩ : OnlineBeat) 1 ≠
      0 ∧
    pmfSum ((⟨[[(1 : ℝ)]], [1], [[(1 : ℝ)]], 1, 0, 0⟩ : OnlineBeat).filter
      1).f = 1 := by
  have hmem : ∀ r ∈ ([[(1 : ℝ)]] : List (List ℝ)), ∀ x ∈ r, 0 ≤ x := by
    intro r hr x hx
    simp only [List.mem_singleton] at hr
    subst hr
    simp only [List.mem_singleton] at hx
    subst hx
    exact zero_le_one
  have hnorm : filterNorm
      (⟨[[(1 : ℝ)]], [1], [[(1 : ℝ)]], 1, 0, 0⟩ : OnlineBeat) 1 ≠ 0 := by
    unfold filterNorm pmfSum filterG2 filterG filterPBeat filterMax
    dsimp only
    have hr1 : List.range ([(1 : ℤ)].length) = [0] := rfl
    rw [hr1]
    simp
  exact ⟨hmem, le_rfl, zero_lt_one, zero_le_one, hnorm,
    (c3_filter_pmf ⟨[[(1 : ℝ)]], [1], [[(1 : ℝ)]], 1, 0, 0⟩ 1 hmem hmem
      le_rfl zero_lt_one zero_le_one hnorm).2.1⟩

/-- Claim C4 (amended): filter has no zero-normalization guard; the
phase output and the probability grid are overwritten unconditionally
with meanPhase/norm and the norm-divided measured grid, and a zero
novelty sample drives every beat-slot mass to 0 (so with the default
construction, where gamma = 0.03 keeps the normalization constant
positive, feeding zeros does change the distribution rather than
leaving it unchanged). -/
theorem c4_no_degenerate_guard :
    (∀ (st : OnlineBeat) (nov : ℝ),
      (st.filter nov).phase = filterMeanPhase st nov / filterNorm st nov) ∧
    (∀ (st : OnlineBeat) (nov : ℝ),
      (st.filter nov).f =
        (filterG2 st nov).map fun r => r.map fun x => x / filterNorm st nov) ∧
    (∀ (st : OnlineBeat) (i : ℕ),
      ((st.filter 0).f.getD i []).getD 0 0 = 0) :=
  ⟨fun _ _ => rfl, fun _ _ => rfl, fun st i => filter_beat_slot_zero st i⟩

/-- Counterexample for C4 as stated: on the tracker built with
sr = 10, hop = 3, fac = 1 and the default lam = 80, minBPM = 40,
maxBPM = 200, gamma = 0.03 (tempo levels 1..5, 15 states), one filter
call with novelty sample 0 changes the probability mass at tempo
level 1, phase slot 0, from 1/15 to 0: the state is updated, not
retained. -/
theorem c4_counterexample :
    (((OnlineBeat.init 10 3 1 80 40 200 (3 / 100)).filter 0).f.getD 1
      []).getD 0 0 = 0 ∧
    ((OnlineBeat.init 10 3 1 80 40 200 (3 / 100)).f.getD 1 []).getD 0 0 =
      (1 : ℝ) / 15 ∧
    ((1 : ℝ) / 15 ≠ 0) ∧
    (OnlineBeat.init 10 3 1 80 40 200 (3 / 100)).phase = 0 := by
  refine ⟨filter_beat_slot_zero _ 1, ?_, by norm_num, rfl⟩
  have h1 : ⌊(60 : ℚ) / (3 * 1 / 10 * 40)⌋ = (5 : ℤ) := by norm_num
  have h2 : ⌊(60 : ℚ) / (3 * 1 / 10 * 200)⌋ = (1 : ℤ) := by norm_num
  unfold OnlineBeat.init
  dsimp only
  rw [h1, h2]
  norm_num
  have hr5 : List.range (Int.toNat 5) = [0, 1, 2, 3, 4] := rfl
  rw [hr5]
  norm_num [List.range_succ]

/-- Claim C10 (amended): the running normalizer of filter satisfies
max' = max(previous max, novelty sample), is monotonically
non-decreasing across calls, the measurement pseudo-probability is
pBeat = nov/max' with max' the updated normalizer, and since the
constructor initializes the normalizer to 150 (not to the first
sample), after any run it equals the maximum of 150 and all samples
seen, not the running maximum of the samples alone. -/
theorem c10_running_max_amended :
    (∀ (st : OnlineBeat) (nov : ℝ), (st.filter nov).max = max st.max nov) ∧
    (∀ (st : OnlineBeat) (nov : ℝ), st.max ≤ (st.filter nov).max) ∧
    (∀ (st : OnlineBeat) (nov : ℝ),
      filterPBeat st nov = nov / (st.filter nov).max) ∧
    (∀ (sr hop fac : ℚ) (lam : ℝ) (minBPM maxBPM : ℚ) (gamma : ℝ),
      (OnlineBeat.init sr hop fac lam minBPM maxBPM gamma).max = 150) ∧
    (∀ (sr hop fac : ℚ) (lam : ℝ) (minBPM maxBPM : ℚ) (gamma : ℝ)
        (l : List ℝ),
      (filterRun (OnlineBeat.init sr hop fac lam minBPM maxBPM gamma)
        l).max = l.foldl (fun m x => max m x) 150) := by
  refine ⟨?_, ?_, fun st nov => rfl, fun _ _ _ _ _ _ _ => rfl, ?_⟩
  · intro st nov
    exact filterMax_eq_max st nov
  · intro st nov
    have h := filterMax_eq_max st nov
    show st.max ≤ filterMax st nov
    rw [h]
    exact le_max_left _ _
  · intro sr hop fac lam minBPM maxBPM gamma l
    rw [filterRun_max]
    rfl

/-- Counterexample for C10 as stated: on the default tracker the
normalizer starts at 150, so after one filter call with novelty
sample 1 it is 150, not the running maximum 1 of the samples seen. -/
theorem c10_counterexample :
    ((OnlineBeat.init 10 3 1 80 40 200 (3 / 100)).filter 1).max = 150 ∧
    (150 : ℝ) ≠ 1 := by
  have hm : (OnlineBeat.init 10 3 1 80 40 200 (3 / 100)).max = 150 := rfl
  constructor
  · show filterMax (OnlineBeat.init 10 3 1 80 40 200 (3 / 100)) 1 = 150
    unfold filterMax
    rw [hm, if_neg (by norm_num : ¬((150 : ℝ) < 1))]
  · norm_num

end Jsanov
